import Mathlib

/-!
Verification of the quoting and path-relativization algorithms of
`src/tools/launcher/util/launcher_util.cc` (Bazel launcher utilities).

Strings (C++ `std::wstring`, sequences of 16-bit `wchar_t` code units) are
embedded as `List Char`.  Reading `s[i]` at `i = s.size()` yields the null
terminator, which `charAt` models by returning `NUL` out of range.  The C++
`int` loop indices and `back_slash_pos` are embedded as `Nat`/`Int`; string
lengths are assumed below `2^31` so the signed/unsigned conversions in the
source cannot overflow or change comparison results.
-/

namespace LauncherUtil

/-- The wide null terminator `L'\0'`. -/
def NUL : Char := Char.ofNat 0

/-- `s[i]` on a `std::wstring`: the character at `i`, or the null terminator
at (or past) the end of the string. -/
def charAt (s : List Char) (i : Nat) : Char := s.getD i NUL

/-! ## Quoting engine, native argv convention (`WindowsEscapeArg2`) -/

/-- `char c = s[i];` in the source truncates each 16-bit `wchar_t` to an
8-bit `char`; comparisons `c == '"'`, `c == '\\'` then test the low byte. -/
def lowByte (c : Char) : Nat := c.toNat % 256

/-- The `needs_escaping` scan: does `s` contain a space or a double quote?
(This loop compares the untruncated `wchar_t` against `' '` and `'"'`.) -/
def needsEscaping (s : List Char) : Bool := s.any (fun c => c = ' ' || c = '"')

/-- Length of the leading run of (exact) backslash characters, as counted by
the `while (j < s.size() && s[j] == '\\')` loop. -/
def leadBS : List Char → Nat
  | [] => 0
  | c :: rest => if c = '\\' then leadBS rest + 1 else 0

/-- Body transformation of `WindowsEscapeArg2`'s main `for` loop: ordinary
characters are copied verbatim (via the `start`-segment mechanism of the
source), a character whose low byte is `'"'` is emitted as `\"`, and a
character whose low byte is `'\\'` starts a backslash run whose treatment
depends on what follows the run (end of string, a quote, or anything else).
The `fuel` argument only bounds the number of loop steps, each of which
consumes at least one character; `escBody` supplies the string length, which
is always sufficient. -/
def escBodyF : Nat → List Char → List Char
  | 0, _ => []
  | _, [] => []
  | fuel + 1, c :: rest =>
    if lowByte c = 34 then
      -- `result << L"\\\"";`
      '\\' :: '"' :: escBodyF fuel rest
    else if lowByte c = 92 then
      let n := leadBS rest + 1
      match rest.drop (leadBS rest) with
      | [] =>
        -- the run of backslashes goes to the end: double it, then `break`
        List.replicate (2 * n) '\\'
      | d :: rest3 =>
        if d = '"' then
          -- run terminated by a quote: double the run, escape the quote
          List.replicate (2 * n) '\\' ++ '\\' :: '"' :: escBodyF fuel rest3
        else
          -- no quote after the run: each backslash counts for itself
          List.replicate n '\\' ++ escBodyF fuel (d :: rest3)
    else
      c :: escBodyF fuel rest

/-- The body loop of `WindowsEscapeArg2` on the whole string. -/
def escBody (s : List Char) : List Char := escBodyF s.length s

/-- `WindowsEscapeArg2`: quote an argument for `CreateProcessW`. -/
def WindowsEscapeArg2 (s : List Char) : List Char :=
  if s = [] then ['"', '"']
  else if needsEscaping s = false then s
  else '"' :: (escBody s ++ ['"'])

/-! ## Quoting engine, simple shell convention (`BashEscapeArg`) -/

/-- Per-character escaping of `BashEscapeArg`'s `switch`. -/
def bashEscChar (c : Char) : List Char :=
  if c = '"' then ['\\', '"'] else if c = '\\' then ['\\', '\\'] else [c]

/-- The `for` loop of `BashEscapeArg`. -/
def bashBody : List Char → List Char
  | [] => []
  | c :: rest => bashEscChar c ++ bashBody rest

/-- `BashEscapeArg`: quote an argument for a Bash command string. -/
def BashEscapeArg (s : List Char) : List Char :=
  if s = [] then ['"', '"']
  else
    (if s.any (fun c => c = ' ') then ['"'] else [])
      ++ bashBody s
      ++ (if s.any (fun c => c = ' ') then ['"'] else [])

/-! ## The native argv decoder

Modelled from the spec: the decoder itself (the argv-splitting startup code
of the invoked program) is not part of this repository; the spec describes it
as "the native argv-splitting convention (backslash-run/quote rules of the
standard process-argument splitter)".  The rules embedded here are the
standard ones the source's own comments cite: a run of `n` backslashes
followed by a double quote produces `n / 2` backslashes and, when `n` is odd,
a literal quote, while an even run leaves the quote special (toggling
in-quotes mode); a backslash run not followed by a quote is literal; an
unescaped quote toggles in-quotes mode; whitespace outside quotes ends the
argument. -/

/-- Modelled from the spec: decode the first argument of a command line under
the native argv-splitting convention.  The `Bool` is the in-quotes state; the
`fuel` argument only bounds the number of steps, each of which consumes at
least one character. -/
def decodeAuxF : Nat → List Char → Bool → List Char
  | 0, _, _ => []
  | _, [], _ => []
  | fuel + 1, c :: rest, inQ =>
    if c = '\\' then
      let n := leadBS rest + 1
      match rest.drop (leadBS rest) with
      | '"' :: rest3 =>
        if n % 2 = 0 then
          List.replicate (n / 2) '\\' ++ decodeAuxF fuel rest3 (!inQ)
        else
          List.replicate (n / 2) '\\' ++ '"' :: decodeAuxF fuel rest3 inQ
      | other =>
        List.replicate n '\\' ++ decodeAuxF fuel other inQ
    else if c = '"' then
      decodeAuxF fuel rest (!inQ)
    else if (c = ' ' ∨ c = Char.ofNat 9) ∧ inQ = false then
      []
    else
      c :: decodeAuxF fuel rest inQ

/-- Modelled from the spec: the first argument recovered by the native
argv splitter from a command-line string. -/
def decodeArg (s : List Char) : List Char := decodeAuxF s.length s false

/-! ## Path relativization (`RelativeTo`) -/

/-- Is `c` an ASCII letter? -/
def isAsciiLetter (c : Char) : Bool :=
  ('A' ≤ c && c ≤ 'Z') || ('a' ≤ c && c ≤ 'z')

/-- Modelled from the spec: `blaze_util::IsAbsolute` is not part of this
repository; the spec says "An absolute path begins with a drive identifier
(e.g., a single letter followed by `:`); a relative path does not." -/
def IsAbsolute : List Char → Bool
  | c :: d :: _ => isAsciiLetter c && d = ':'
  | _ => false

/-- The lockstep matching loop of `RelativeTo`:
`while (path[pos] == base[pos] && base[pos] != L'\0')`, recording in
`back_slash_pos` the position of the last matched backslash.  The two lists
are the not-yet-scanned suffixes of `path` and `base`; `pos` is the current
index and `bsp` the current `back_slash_pos` (initially `-1`). -/
def relScanAux : List Char → List Char → Nat → Int → Nat × Int
  | pc :: ps, bc :: bs, pos, bsp =>
    if pc = bc ∧ bc ≠ NUL then
      relScanAux ps bs (pos + 1) (if pc = '\\' then (pos : Int) else bsp)
    else (pos, bsp)
  | _, _, pos, bsp => (pos, bsp)

/-- The literal `..\`. -/
def dotdotSep : List Char := ['.', '.', '\\']

/-- The `for (int i = back_slash_pos + 1; i < base.length(); i++)` loop:
one `..\` for each backslash in the given suffix of `base`. -/
def seps2dots : List Char → List Char
  | [] => []
  | c :: rest => (if c = '\\' then dotdotSep else []) ++ seps2dots rest

/-- The computation of `RelativeTo` after the two precondition checks have
passed: lockstep scan, the identical-paths case, the ancestor adjustment of
`back_slash_pos`, the `..\` prefix, and the unmatched `path` suffix. -/
def relCore (path base : List Char) : List Char :=
  let scan := relScanAux path base 0 (-1)
  let pos := scan.1
  let bsp0 := scan.2
  if charAt base pos = NUL ∧ charAt path pos = NUL then
    -- base == path
    []
  else
    let bsp : Int :=
      if (charAt base pos = NUL ∧ charAt path pos = '\\')
          ∨ (charAt base pos = '\\' ∧ charAt path pos = NUL) then
        (pos : Int)
      else bsp0
    let pre1 : List Char :=
      if bsp + 1 < (base.length : Int) then dotdotSep else []
    let pre2 : List Char := seps2dots (base.drop ((bsp + 1).toNat))
    let suf : List Char :=
      if bsp ≠ (path.length : Int) then path.drop ((bsp + 1).toNat) else []
    pre1 ++ (pre2 ++ suf)

/-- Observable outcome of a `RelativeTo` call: the returned `bool`, the final
value of the output parameter `*result` (given its value `result0` before the
call), the number of diagnostics written by `PrintError` (which reports to
`stderr` and returns, unlike `die`, which exits the process), and whether the
call terminated the process (`die`/`exit`; `RelativeTo` never calls them). -/
structure RelReturn where
  ok : Bool
  result : List Char
  logged : Nat
  terminated : Bool
deriving DecidableEq, Repr

/-- `RelativeTo(path, base, &result)`: the two `InputMismatch` checks (each
reporting one diagnostic via `PrintError` and returning `false` with `result`
untouched), then the relativization proper. -/
def RelativeTo (path base : List Char) (result0 : List Char) : RelReturn :=
  if (IsAbsolute path != IsAbsolute base) = true then
    ⟨false, result0, 1, false⟩
  else if (IsAbsolute path && IsAbsolute base
      && charAt path 0 != charAt base 0) = true then
    ⟨false, result0, 1, false⟩
  else
    ⟨true, relCore path base, 0, false⟩

/-! ## Lexical resolution (the spec's consistency law)

Modelled from the spec: resolving the relative result against `base` is not
an operation of this repository; the spec defines it as "lexically resolving
`RelativeTo(path, base)` against `base` (interpreting `..` and segments
without touching the filesystem)". -/

/-- Split a path on `\` into its segments. -/
def splitSegs : List Char → List (List Char)
  | [] => [[]]
  | c :: rest =>
    if c = '\\' then [] :: splitSegs rest
    else
      match splitSegs rest with
      | [] => [[c]]
      | g :: gs => (c :: g) :: gs

/-- The literal `..`. -/
def dotdot : List Char := ['.', '.']

/-- Modelled from the spec: apply one segment of a relative path to a stack
of path segments: `..` pops the last segment, an empty segment (a doubled or
trailing separator) names the same directory and is skipped, and any other
segment is appended. -/
def applySeg (acc : List (List Char)) (g : List Char) : List (List Char) :=
  if g = dotdot then acc.dropLast else if g = [] then acc else acc ++ [g]

/-- Join segments with `\`. -/
def sepJoin : List (List Char) → List Char
  | [] => []
  | g :: gs => '\\' :: (g ++ sepJoin gs)

/-- Render a segment list as a path string. -/
def joinSegs : List (List Char) → List Char
  | [] => []
  | g :: gs => g ++ sepJoin gs

/-- Modelled from the spec: lexical resolution of a relative path `rel`
against `base`, interpreting `..` and plain segments without filesystem
access. -/
def resolve (base rel : List Char) : List Char :=
  joinSegs ((splitSegs rel).foldl applySeg (splitSegs base))

/-- A well-formed (normalized) path segment: nonempty, free of separators
and of embedded null characters, and not the special segment `..` (a
normalized path contains no up-references). -/
def ValidSeg (g : List Char) : Prop :=
  g ≠ [] ∧ (∀ c ∈ g, c ≠ '\\' ∧ c ≠ NUL) ∧ g ≠ dotdot

instance (g : List Char) : Decidable (ValidSeg g) := by
  unfold ValidSeg; infer_instance

/-- A normalized path, as a nonempty list of well-formed segments (for an
absolute path, the first segment is the drive identifier, e.g. `C:`). -/
def ValidSegs (l : List (List Char)) : Prop :=
  l ≠ [] ∧ ∀ g ∈ l, ValidSeg g

instance (l : List (List Char)) : Decidable (ValidSegs l) := by
  unfold ValidSegs; infer_instance

/-- The value of `back_slash_pos` after the lockstep loop has matched the
characters of `u`, starting at index `pos` with previous value `bsp`. -/
def bspUpd : List Char → Nat → Int → Int
  | [], _, bsp => bsp
  | c :: u, pos, bsp => bspUpd u (pos + 1) (if c = '\\' then (pos : Int) else bsp)

/-- `n` copies of the literal `..\`. -/
def repDots : Nat → List Char
  | 0 => []
  | n + 1 => dotdotSep ++ repDots n

/-! ## Theorems -/

/-- C8: `Quote` on the empty string returns the two-character string `""`,
and `BashQuote` on the empty string returns the same two-character string. -/
theorem c8_empty_quoting :
    WindowsEscapeArg2 [] = ['"', '"'] ∧ BashEscapeArg [] = ['"', '"'] := by
  constructor <;> rfl

/-- C1 (code bug): `WindowsEscapeArg2` truncates each `wchar_t` to `char`
(`char c = s[i];`) before testing it against `'"'` and `'\\'`, so the wide
character U+0122 (low byte 0x22) in the input `a␣Ģ` is treated as a double
quote and emitted as `\"`; the output `"a \""` no longer contains U+0122 and
decodes to `a␣"` rather than the original string, breaking the round-trip
guarantee. -/
theorem c1_quote_truncation_bug :
    WindowsEscapeArg2 ['a', ' ', Char.ofNat 290] = ['"', 'a', ' ', '\\', '"', '"']
      ∧ decodeArg (WindowsEscapeArg2 ['a', ' ', Char.ofNat 290]) = ['a', ' ', '"']
      ∧ decodeArg (WindowsEscapeArg2 ['a', ' ', Char.ofNat 290])
          ≠ ['a', ' ', Char.ofNat 290] := by
  refine ⟨by decide, by decide, by decide⟩

/-- C4 (counterexample): the claim states `Quote("a\") = "\"a\\\\\""`, but the
input `a\` contains neither a space nor a quote, so `WindowsEscapeArg2`
returns it unchanged. -/
theorem c4_trailing_backslash_counterexample :
    WindowsEscapeArg2 ['a', '\\'] = ['a', '\\']
      ∧ WindowsEscapeArg2 ['a', '\\'] ≠ ['"', 'a', '\\', '\\', '"'] := by
  refine ⟨by decide, by decide⟩

/-- C4 (amended): `a\` and `a\b` contain no space and no quote, so `Quote`
returns them unchanged by the no-op rule; the claimed backslash-run boundary
behaviour shows once quoting is triggered: a trailing run is doubled
(`a␣\` → `"a␣\\"`), a run before a quote is doubled with the quote escaped
(`a\"` → `"a\\\""`, as the claim states), and a run before an ordinary
character keeps its count (`a␣\b` → `"a␣\b"`). -/
theorem c4_backslash_runs_amended :
    WindowsEscapeArg2 ['a', '\\'] = ['a', '\\']
      ∧ WindowsEscapeArg2 ['a', '\\', 'b'] = ['a', '\\', 'b']
      ∧ WindowsEscapeArg2 ['a', '\\', '"']
          = ['"', 'a', '\\', '\\', '\\', '"', '"']
      ∧ WindowsEscapeArg2 ['a', ' ', '\\'] = ['"', 'a', ' ', '\\', '\\', '"']
      ∧ WindowsEscapeArg2 ['a', ' ', '\\', 'b']
          = ['"', 'a', ' ', '\\', 'b', '"'] := by
  refine ⟨by decide, by decide, by decide, by decide, by decide⟩

/-- C7 (counterexample): the empty string contains no space and no quote,
yet `Quote("")` is `""` (two quote characters), not the empty string
unchanged. -/
theorem c7_empty_counterexample :
    WindowsEscapeArg2 [] = ['"', '"'] ∧ WindowsEscapeArg2 [] ≠ [] := by
  refine ⟨by decide, by decide⟩

/-- C7 (amended): for every nonempty string with no space character and no
double-quote character (backslashes and all other characters allowed),
`WindowsEscapeArg2` returns its input unchanged. -/
theorem c7_noop_amended (s : List Char) (hne : s ≠ [])
    (h : ∀ c ∈ s, c ≠ ' ' ∧ c ≠ '"') : WindowsEscapeArg2 s = s := by
  have hesc : needsEscaping s = false := by
    simp only [needsEscaping, List.any_eq_false]
    intro c hc
    rcases h c hc with ⟨h1, h2⟩
    simp [h1, h2]
  simp [WindowsEscapeArg2, hne, hesc]

/-- Witness for C7 at the concrete input `a\`. -/
theorem c7_noop_amended_witness :
    WindowsEscapeArg2 ['x', '\\', 'y'] = ['x', '\\', 'y'] :=
  c7_noop_amended ['x', '\\', 'y'] (by decide) (by decide)

/-- C3 (counterexample): for `path = C:\foo`, `base = C:\foo\bar` the code
returns the three-character string `..\` (with a trailing backslash), not the
two-character string `..` the claim states. -/
theorem c3_ancestor_counterexample :
    (RelativeTo ['C', ':', '\\', 'f', 'o', 'o']
        ['C', ':', '\\', 'f', 'o', 'o', '\\', 'b', 'a', 'r'] []).result
      = ['.', '.', '\\']
    ∧ (RelativeTo ['C', ':', '\\', 'f', 'o', 'o']
        ['C', ':', '\\', 'f', 'o', 'o', '\\', 'b', 'a', 'r'] []).result
      ≠ ['.', '.'] := by
  refine ⟨by decide, by decide⟩

/-- C3 (amended): the four examples as the code computes them:
`C:\foo\bar1` against `C:\foo\bar2` gives `..\bar1`; `C:\foo\bar` against
`C:\foo` gives `bar`; `C:\foo` against `C:\foo\bar` gives `..\` (three
characters, with a trailing backslash, not `..`); and `C:\foo` against
`C:\foo` gives the empty string.  All four calls succeed. -/
theorem c3_examples_amended :
    RelativeTo ['C', ':', '\\', 'f', 'o', 'o', '\\', 'b', 'a', 'r', '1']
        ['C', ':', '\\', 'f', 'o', 'o', '\\', 'b', 'a', 'r', '2'] []
      = ⟨true, ['.', '.', '\\', 'b', 'a', 'r', '1'], 0, false⟩
    ∧ RelativeTo ['C', ':', '\\', 'f', 'o', 'o', '\\', 'b', 'a', 'r']
        ['C', ':', '\\', 'f', 'o', 'o'] []
      = ⟨true, ['b', 'a', 'r'], 0, false⟩
    ∧ RelativeTo ['C', ':', '\\', 'f', 'o', 'o']
        ['C', ':', '\\', 'f', 'o', 'o', '\\', 'b', 'a', 'r'] []
      = ⟨true, ['.', '.', '\\'], 0, false⟩
    ∧ RelativeTo ['C', ':', '\\', 'f', 'o', 'o']
        ['C', ':', '\\', 'f', 'o', 'o'] []
      = ⟨true, [], 0, false⟩ := by
  refine ⟨by decide, by decide, by decide, by decide⟩

/-- C5 (counterexample): on the invalid pair `path = C:\foo`, `base = bar`
the function does produce a diagnostic itself — it calls `PrintError` once
before returning — so the module is not free of logging. -/
theorem c5_logging_counterexample :
    (RelativeTo ['C', ':', '\\', 'f', 'o', 'o'] ['b', 'a', 'r'] []).logged ≠ 0
    ∧ RelativeTo ['C', ':', '\\', 'f', 'o', 'o'] ['b', 'a', 'r'] []
      = ⟨false, [], 1, false⟩ := by
  refine ⟨by decide, by decide⟩

/-- On an invalid input pair (mixed absolute/relative, or both absolute with
different first characters), `RelativeTo` returns `false`, leaves `result`
untouched, logs exactly one diagnostic, and does not terminate. -/
theorem relativeTo_invalid (p b r0 : List Char)
    (h : IsAbsolute p ≠ IsAbsolute b
      ∨ (IsAbsolute p = true ∧ IsAbsolute b = true ∧ charAt p 0 ≠ charAt b 0)) :
    RelativeTo p b r0 = ⟨false, r0, 1, false⟩ := by
  unfold RelativeTo
  rcases h with h | ⟨h1, h2, h3⟩
  · have hne : (IsAbsolute p != IsAbsolute b) = true := by
      cases hp : IsAbsolute p <;> cases hb : IsAbsolute b <;> simp_all
    simp [hne]
  · by_cases hne : (IsAbsolute p != IsAbsolute b) = true
    · simp [hne]
    · have hc : (IsAbsolute p && IsAbsolute b && (charAt p 0 != charAt b 0))
          = true := by
        simp [h1, h2, bne_iff_ne, h3]
      simp [hne, hc]

/-- C5 (amended): on every invalid input pair `RelativeTo` returns `false`
to the caller rather than terminating the process, and leaves the output
parameter untouched; however it emits exactly one diagnostic itself (via the
non-fatal `PrintError`) before returning, so diagnostic formatting is not
entirely the caller's concern. -/
theorem c5_failure_behaviour (p b r0 : List Char)
    (h : IsAbsolute p ≠ IsAbsolute b
      ∨ (IsAbsolute p = true ∧ IsAbsolute b = true ∧ charAt p 0 ≠ charAt b 0)) :
    RelativeTo p b r0 = ⟨false, r0, 1, false⟩ :=
  relativeTo_invalid p b r0 h

/-- Witness for C5 at the concrete invalid pair `path = x:`, `base = y`. -/
theorem c5_failure_behaviour_witness :
    RelativeTo ['x', ':'] ['y'] ['k'] = ⟨false, ['k'], 1, false⟩ :=
  c5_failure_behaviour ['x', ':'] ['y'] ['k'] (Or.inl (by decide))

/-- C6: `RelativeTo` fails whenever exactly one of the inputs is absolute,
and whenever both are absolute with different drive identifiers (different
first characters); in particular `C:\foo` against relative `bar` fails, and
`C:\foo` against `D:\foo` fails. -/
theorem c6_mismatch_failures :
    (∀ p b r0, IsAbsolute p ≠ IsAbsolute b → (RelativeTo p b r0).ok = false)
    ∧ (∀ p b r0, IsAbsolute p = true → IsAbsolute b = true
        → charAt p 0 ≠ charAt b 0 → (RelativeTo p b r0).ok = false)
    ∧ (RelativeTo ['C', ':', '\\', 'f', 'o', 'o'] ['b', 'a', 'r'] []).ok = false
    ∧ (RelativeTo ['C', ':', '\\', 'f', 'o', 'o']
        ['D', ':', '\\', 'f', 'o', 'o'] []).ok = false := by
  refine ⟨?_, ?_, by decide, by decide⟩
  · intro p b r0 h
    rw [relativeTo_invalid p b r0 (Or.inl h)]
  · intro p b r0 h1 h2 h3
    rw [relativeTo_invalid p b r0 (Or.inr ⟨h1, h2, h3⟩)]

/-- Witness for C6 at the concrete mixed pair `path = z:`, `base = w`. -/
theorem c6_mismatch_failures_witness :
    (RelativeTo ['z', ':'] ['w'] []).ok = false :=
  c6_mismatch_failures.1 ['z', ':'] ['w'] [] (by decide)

/-- C9: whenever `RelativeTo` returns `false`, the output parameter `result`
is left completely unchanged: both failure checks return before any write to
`result` occurs. -/
theorem c9_failure_leaves_result (p b r0 : List Char)
    (h : (RelativeTo p b r0).ok = false) :
    (RelativeTo p b r0).result = r0 := by
  unfold RelativeTo at h ⊢
  split_ifs at h ⊢ <;> simp_all

/-- Witness for C9: a failing call leaves the previous `result` value. -/
theorem c9_failure_leaves_result_witness :
    (RelativeTo ['a'] ['q', ':'] ['o', 'l', 'd']).result = ['o', 'l', 'd'] :=
  c9_failure_leaves_result ['a'] ['q', ':'] ['o', 'l', 'd'] (by decide)

/-! ### The lockstep scan -/

/-- The scan with an exhausted `path` suffix stops immediately. -/
theorem relScanAux_nil_left (b : List Char) (pos : Nat) (bsp : Int) :
    relScanAux [] b pos bsp = (pos, bsp) := by
  cases b <;> rfl

/-- The scan with an exhausted `base` suffix stops immediately. -/
theorem relScanAux_nil_right (p : List Char) (pos : Nat) (bsp : Int) :
    relScanAux p [] pos bsp = (pos, bsp) := by
  cases p <;> rfl

/-- The scan stops as soon as the loop condition
`path[pos] == base[pos] && base[pos] != L'\0'` fails on the current
characters. -/
theorem relScanAux_stop (p b : List Char) (pos : Nat) (bsp : Int)
    (h : ¬(charAt p 0 = charAt b 0 ∧ charAt b 0 ≠ NUL)) :
    relScanAux p b pos bsp = (pos, bsp) := by
  cases p with
  | nil => exact relScanAux_nil_left b pos bsp
  | cons pc ps =>
    cases b with
    | nil => rfl
    | cons bc bs =>
      simp only [charAt, List.getD_cons_zero] at h
      simp only [relScanAux, if_neg h]

/-- The scan advances through a common prefix `u` free of null characters,
updating `back_slash_pos` through `u`. -/
theorem relScanAux_append (u : List Char) (hu : ∀ c ∈ u, c ≠ NUL) :
    ∀ (p b : List Char) (pos : Nat) (bsp : Int),
      relScanAux (u ++ p) (u ++ b) pos bsp
        = relScanAux p b (pos + u.length) (bspUpd u pos bsp) := by
  induction u with
  | nil => intro p b pos bsp; simp [bspUpd]
  | cons c u ih =>
    intro p b pos bsp
    have hc : c ≠ NUL := hu c (List.mem_cons_self c u)
    have step : relScanAux (c :: (u ++ p)) (c :: (u ++ b)) pos bsp
        = relScanAux (u ++ p) (u ++ b) (pos + 1)
            (if c = '\\' then (pos : Int) else bsp) := by
      rw [relScanAux, if_pos ⟨rfl, hc⟩]
    simp only [List.cons_append]
    rw [step, ih (fun x hx => hu x (List.mem_cons_of_mem c hx)) p b (pos + 1)]
    have harith : pos + 1 + u.length = pos + (c :: u).length := by
      simp [List.length_cons]; omega
    rw [harith]
    rfl

/-- Bound and stop condition for the full scan: the final position never
passes the end of either string, and at it the loop condition fails. -/
theorem relScan_spec (p : List Char) :
    ∀ (b : List Char) (pos : Nat) (bsp : Int),
      ∃ k : Nat, (relScanAux p b pos bsp).1 = pos + k
        ∧ k ≤ p.length ∧ k ≤ b.length
        ∧ ¬(charAt p k = charAt b k ∧ charAt b k ≠ NUL) := by
  induction p with
  | nil =>
    intro b pos bsp
    refine ⟨0, by simp [relScanAux_nil_left], Nat.le_refl 0, Nat.zero_le _, ?_⟩
    intro ⟨h1, h2⟩
    exact h2 (h1 ▸ rfl)
  | cons pc ps ih =>
    intro b pos bsp
    cases b with
    | nil =>
      refine ⟨0, by simp [relScanAux_nil_right], Nat.zero_le _, Nat.le_refl 0, ?_⟩
      intro ⟨h1, h2⟩
      exact h2 rfl
    | cons bc bs =>
      by_cases hc : pc = bc ∧ bc ≠ NUL
      · obtain ⟨k, hk, hkp, hkb, hstop⟩ :=
          ih bs (pos + 1) (if pc = '\\' then (pos : Int) else bsp)
        refine ⟨k + 1, ?_, ?_, ?_, ?_⟩
        · simp only [relScanAux, if_pos hc]
          rw [hk]; omega
        · simp only [List.length_cons]; omega
        · simp only [List.length_cons]; omega
        · simpa only [charAt, List.getD_cons_succ] using hstop
      · refine ⟨0, ?_, Nat.zero_le _, Nat.zero_le _, ?_⟩
        · rw [relScanAux_stop _ _ _ _ (by simpa [charAt] using hc)]
          simp
        · simpa [charAt] using hc

/-- C10: for every input pair accepted by `RelativeTo`, the lockstep loop
terminates (it is a total function here) with a final position that never
exceeds the length of either string, and at which the loop condition fails:
either the characters differ or `base` is at its null terminator.  A read at
a position equal to a string's length only sees the null terminator, so an
out-of-bounds access is unreachable. -/
theorem c10_scan_bounds (p b r0 : List Char)
    (h : (RelativeTo p b r0).ok = true) :
    (relScanAux p b 0 (-1)).1 ≤ p.length
      ∧ (relScanAux p b 0 (-1)).1 ≤ b.length
      ∧ (charAt p (relScanAux p b 0 (-1)).1 ≠ charAt b (relScanAux p b 0 (-1)).1
          ∨ charAt b (relScanAux p b 0 (-1)).1 = NUL) := by
  obtain ⟨k, hk, hkp, hkb, hstop⟩ := relScan_spec p b 0 (-1)
  rw [hk]
  simp only [Nat.zero_add]
  refine ⟨hkp, hkb, ?_⟩
  by_cases he : charAt p k = charAt b k
  · right
    by_contra hne
    exact hstop ⟨he, hne⟩
  · left; exact he

/-- Witness for C10 at the accepted pair `path = C:\u`, `base = C:\v\w`. -/
theorem c10_scan_bounds_witness :
    (relScanAux ['C', ':', '\\', 'u'] ['C', ':', '\\', 'v', '\\', 'w'] 0 (-1)).1
        ≤ (['C', ':', '\\', 'u'] : List Char).length
      ∧ (relScanAux ['C', ':', '\\', 'u'] ['C', ':', '\\', 'v', '\\', 'w'] 0 (-1)).1
        ≤ (['C', ':', '\\', 'v', '\\', 'w'] : List Char).length
      ∧ (charAt ['C', ':', '\\', 'u']
            (relScanAux ['C', ':', '\\', 'u'] ['C', ':', '\\', 'v', '\\', 'w'] 0 (-1)).1
          ≠ charAt ['C', ':', '\\', 'v', '\\', 'w']
            (relScanAux ['C', ':', '\\', 'u'] ['C', ':', '\\', 'v', '\\', 'w'] 0 (-1)).1
        ∨ charAt ['C', ':', '\\', 'v', '\\', 'w']
            (relScanAux ['C', ':', '\\', 'u'] ['C', ':', '\\', 'v', '\\', 'w'] 0 (-1)).1
          = NUL) :=
  c10_scan_bounds ['C', ':', '\\', 'u'] ['C', ':', '\\', 'v', '\\', 'w'] []
    (by decide)

/-! ### Character and segment toolbox for the consistency law -/

theorem charAt_past_end (s : List Char) (k : Nat) (h : s.length ≤ k) :
    charAt s k = NUL := by
  unfold charAt
  exact List.getD_eq_default s NUL h

theorem charAt_append_len (A R : List Char) :
    charAt (A ++ R) A.length = charAt R 0 := by
  induction A with
  | nil => simp
  | cons c A ih => simpa [charAt, List.length_cons] using ih

theorem charAt_cons_zero (c : Char) (s : List Char) : charAt (c :: s) 0 = c := by
  simp [charAt]

theorem bspUpd_no_sep (u : List Char) (h : ∀ c ∈ u, c ≠ '\\') :
    ∀ (pos : Nat) (bsp : Int), bspUpd u pos bsp = bsp := by
  induction u with
  | nil => intro pos bsp; rfl
  | cons c u ih =>
    intro pos bsp
    have hc : c ≠ '\\' := h c (List.mem_cons_self c u)
    simp only [bspUpd, if_neg hc]
    exact ih (fun x hx => h x (List.mem_cons_of_mem c hx)) _ _

theorem bspUpd_append (u v : List Char) :
    ∀ (pos : Nat) (bsp : Int),
      bspUpd (u ++ v) pos bsp = bspUpd v (pos + u.length) (bspUpd u pos bsp) := by
  induction u with
  | nil => intro pos bsp; simp [bspUpd]
  | cons c u ih =>
    intro pos bsp
    simp only [List.cons_append, bspUpd, List.append_eq]
    rw [ih]
    have harith : pos + 1 + u.length = pos + (c :: u).length := by
      simp [List.length_cons]; omega
    rw [harith]

theorem sepJoin_append (L M : List (List Char)) :
    sepJoin (L ++ M) = sepJoin L ++ sepJoin M := by
  induction L with
  | nil => simp [sepJoin]
  | cons g gs ih => simp [sepJoin, ih]

theorem joinSegs_cons (g : List Char) (gs : List (List Char)) :
    joinSegs (g :: gs) = g ++ sepJoin gs := rfl

theorem sepJoin_cons (g : List Char) (gs : List (List Char)) :
    sepJoin (g :: gs) = '\\' :: joinSegs (g :: gs) := rfl

theorem joinSegs_append_left (L M : List (List Char)) (h : L ≠ []) :
    joinSegs (L ++ M) = joinSegs L ++ sepJoin M := by
  cases L with
  | nil => exact absurd rfl h
  | cons g gs => simp [joinSegs, sepJoin_append]

theorem sepJoin_no_nul (L : List (List Char))
    (h : ∀ g ∈ L, ∀ c ∈ g, c ≠ NUL) : ∀ c ∈ sepJoin L, c ≠ NUL := by
  induction L with
  | nil => intro c hc; simp [sepJoin] at hc
  | cons g gs ih =>
    intro c hc
    simp only [sepJoin, List.mem_cons, List.mem_append] at hc
    rcases hc with hc | hc | hc
    · subst hc; decide
    · exact h g (List.mem_cons_self g gs) c hc
    · exact ih (fun x hx => h x (List.mem_cons_of_mem g hx)) c hc

theorem joinSegs_no_nul (L : List (List Char))
    (h : ∀ g ∈ L, ∀ c ∈ g, c ≠ NUL) : ∀ c ∈ joinSegs L, c ≠ NUL := by
  cases L with
  | nil => intro c hc; simp [joinSegs] at hc
  | cons g gs =>
    intro c hc
    simp only [joinSegs, List.mem_append] at hc
    rcases hc with hc | hc
    · exact h g (List.mem_cons_self g gs) c hc
    · exact sepJoin_no_nul gs (fun x hx => h x (List.mem_cons_of_mem g hx)) c hc

theorem seps2dots_append (s t : List Char) :
    seps2dots (s ++ t) = seps2dots s ++ seps2dots t := by
  induction s with
  | nil => simp [seps2dots]
  | cons c s ih => simp [seps2dots, ih]

theorem seps2dots_no_sep (s : List Char) (h : ∀ c ∈ s, c ≠ '\\') :
    seps2dots s = [] := by
  induction s with
  | nil => rfl
  | cons c s ih =>
    have hc : c ≠ '\\' := h c (List.mem_cons_self c s)
    simp only [seps2dots, if_neg hc, List.nil_append]
    exact ih (fun x hx => h x (List.mem_cons_of_mem c hx))

theorem seps2dots_sepJoin (L : List (List Char))
    (h : ∀ g ∈ L, ∀ c ∈ g, c ≠ '\\') :
    seps2dots (sepJoin L) = repDots L.length := by
  induction L with
  | nil => rfl
  | cons g gs ih =>
    have hg : seps2dots g = [] :=
      seps2dots_no_sep g (h g (List.mem_cons_self g gs))
    have ih' := ih (fun x hx => h x (List.mem_cons_of_mem g hx))
    simp [sepJoin, seps2dots, seps2dots_append, hg, repDots, ih']

/-! ### Splitting and folding of resolved paths -/

theorem splitSegs_no_sep (g : List Char) (h : ∀ c ∈ g, c ≠ '\\') :
    splitSegs g = [g] := by
  induction g with
  | nil => rfl
  | cons c g ih =>
    have hc : c ≠ '\\' := h c (List.mem_cons_self c g)
    have ih' := ih (fun x hx => h x (List.mem_cons_of_mem c hx))
    simp [splitSegs, if_neg hc, ih']

theorem splitSegs_seg_sep (g s : List Char) (h : ∀ c ∈ g, c ≠ '\\') :
    splitSegs (g ++ '\\' :: s) = g :: splitSegs s := by
  induction g with
  | nil => simp [splitSegs]
  | cons c g ih =>
    have hc : c ≠ '\\' := h c (List.mem_cons_self c g)
    have ih' := ih (fun x hx => h x (List.mem_cons_of_mem c hx))
    simp [splitSegs, if_neg hc, ih']

theorem splitSegs_joinSegs (L : List (List Char)) (hL : L ≠ [])
    (h : ∀ g ∈ L, ∀ c ∈ g, c ≠ '\\') : splitSegs (joinSegs L) = L := by
  induction L with
  | nil => exact absurd rfl hL
  | cons g gs ih =>
    cases gs with
    | nil =>
      have : joinSegs [g] = g := by simp [joinSegs, sepJoin]
      rw [this, splitSegs_no_sep g (h g (List.mem_cons_self g []))]
    | cons q t =>
      have hjoin : joinSegs (g :: q :: t) = g ++ '\\' :: joinSegs (q :: t) := by
        simp [joinSegs, sepJoin]
      rw [hjoin, splitSegs_seg_sep g _ (h g (List.mem_cons_self g (q :: t)))]
      rw [ih (by simp) (fun x hx => h x (List.mem_cons_of_mem g hx))]

theorem splitSegs_repDots (k : Nat) (s : List Char) :
    splitSegs (repDots k ++ s) = List.replicate k dotdot ++ splitSegs s := by
  induction k with
  | zero => simp [repDots]
  | succ n ih =>
    have hshape : repDots (n + 1) ++ s = dotdot ++ '\\' :: (repDots n ++ s) := by
      simp [repDots, dotdotSep, dotdot]
    rw [hshape, splitSegs_seg_sep dotdot _ (by decide), ih,
      List.replicate_succ, List.cons_append]

theorem applySeg_plain (acc : List (List Char)) (g : List Char)
    (h1 : g ≠ []) (h2 : g ≠ dotdot) : applySeg acc g = acc ++ [g] := by
  simp [applySeg, h1, h2]

theorem foldl_applySeg_plain (M : List (List Char))
    (h : ∀ g ∈ M, g ≠ [] ∧ g ≠ dotdot) :
    ∀ acc, M.foldl applySeg acc = acc ++ M := by
  induction M with
  | nil => intro acc; simp
  | cons g M ih =>
    intro acc
    obtain ⟨h1, h2⟩ := h g (List.mem_cons_self g M)
    simp only [List.foldl_cons, applySeg_plain acc g h1 h2]
    rw [ih (fun x hx => h x (List.mem_cons_of_mem g hx))]
    simp

theorem foldl_applySeg_pops :
    ∀ (n : Nat) (D acc : List (List Char)), D.length = n →
      List.foldl applySeg (acc ++ D) (List.replicate n dotdot) = acc := by
  intro n
  induction n with
  | zero =>
    intro D acc hD
    rw [List.length_eq_zero.mp hD]
    simp
  | succ m ih =>
    intro D acc hD
    cases D with
    | nil => simp at hD
    | cons d D' =>
      have hpop : applySeg (acc ++ d :: D') dotdot
          = acc ++ (d :: D').dropLast := by
        simp [applySeg, List.dropLast_append_cons]
      rw [List.replicate_succ, List.foldl_cons, hpop]
      apply ih
      simp only [List.length_dropLast, List.length_cons] at hD ⊢
      omega

/-- Every pair of lists decomposes as a common stem followed by suffixes
whose heads, when both exist, differ. -/
theorem commonStem {α : Type} :
    ∀ (xs ys : List α),
      ∃ u xs2 ys2, xs = u ++ xs2 ∧ ys = u ++ ys2 ∧
        ∀ a t b t2, xs2 = a :: t → ys2 = b :: t2 → a ≠ b := by
  intro xs
  induction xs with
  | nil =>
    intro ys
    exact ⟨[], [], ys, rfl, rfl, by intro a t b t2 hx hy; cases hx⟩
  | cons a xs ih =>
    intro ys
    cases ys with
    | nil =>
      exact ⟨[], a :: xs, [], rfl, rfl, by intro _ _ _ _ hx hy; cases hy⟩
    | cons b ys' =>
      by_cases hab : a = b
      · obtain ⟨u, x2, y2, h1, h2, h3⟩ := ih ys'
        subst hab
        exact ⟨a :: u, x2, y2, by simp [h1], by simp [h2], h3⟩
      · refine ⟨[], a :: xs, b :: ys', rfl, rfl, ?_⟩
        intro a' t b' t2 hx hy
        cases hx; cases hy
        exact hab

/-! ### Computing `relCore` case by case -/

theorem validSegs_no_sep (l : List (List Char)) (h : ∀ g ∈ l, ValidSeg g) :
    ∀ g ∈ l, ∀ c ∈ g, c ≠ '\\' :=
  fun g hg c hc => ((h g hg).2.1 c hc).1

theorem validSegs_no_nul (l : List (List Char)) (h : ∀ g ∈ l, ValidSeg g) :
    ∀ g ∈ l, ∀ c ∈ g, c ≠ NUL :=
  fun g hg c hc => ((h g hg).2.1 c hc).2

/-- Evaluation of `relCore` once the scan result, the adjusted
`back_slash_pos` and the non-identical branch are known. -/
theorem relCore_compute (path base : List Char) (pos : Nat) (bsp0 bsp : Int)
    (hscan : relScanAux path base 0 (-1) = (pos, bsp0))
    (hbsp : bsp = if (charAt base pos = NUL ∧ charAt path pos = '\\')
        ∨ (charAt base pos = '\\' ∧ charAt path pos = NUL)
      then (pos : Int) else bsp0)
    (hnotid : ¬(charAt base pos = NUL ∧ charAt path pos = NUL)) :
    relCore path base =
      (if bsp + 1 < (base.length : Int) then dotdotSep else [])
        ++ (seps2dots (base.drop ((bsp + 1).toNat))
          ++ (if bsp ≠ (path.length : Int)
              then path.drop ((bsp + 1).toNat) else [])) := by
  unfold relCore
  rw [hscan]
  dsimp only
  rw [if_neg hnotid, ← hbsp]

/-- Identical inputs: the scan exhausts both strings and `RelativeTo`
returns the empty string. -/
theorem relCore_identical (s : List Char) (h : ∀ c ∈ s, c ≠ NUL) :
    relCore s s = [] := by
  have hscan : relScanAux s s 0 (-1) = (s.length, bspUpd s 0 (-1)) := by
    have h0 := relScanAux_append s h [] [] 0 (-1)
    simpa [relScanAux_nil_left] using h0
  have hP : charAt s s.length = NUL := charAt_past_end s s.length le_rfl
  unfold relCore
  rw [hscan]
  dsimp only
  rw [if_pos ⟨hP, hP⟩]

/-- `base` is a strict segment-ancestor of `path`:
`relCore (joinSegs (u ++ q :: P3)) (joinSegs u)` is the unmatched suffix of
`path`. -/
theorem relCore_ancestor_path (u : List (List Char)) (q : List Char)
    (P3 : List (List Char)) (hu : u ≠ [])
    (huV : ∀ g ∈ u, ValidSeg g) :
    relCore (joinSegs (u ++ q :: P3)) (joinSegs u) = joinSegs (q :: P3) := by
  have hjuN : ∀ c ∈ joinSegs u, c ≠ NUL :=
    joinSegs_no_nul u (validSegs_no_nul u huV)
  have hpath : joinSegs (u ++ q :: P3)
      = joinSegs u ++ '\\' :: joinSegs (q :: P3) := by
    rw [joinSegs_append_left u _ hu, sepJoin_cons]
  have hscan : relScanAux (joinSegs u ++ '\\' :: joinSegs (q :: P3))
      (joinSegs u) 0 (-1)
      = ((joinSegs u).length, bspUpd (joinSegs u) 0 (-1)) := by
    have h0 := relScanAux_append (joinSegs u) hjuN
      ('\\' :: joinSegs (q :: P3)) [] 0 (-1)
    simpa [relScanAux_nil_right] using h0
  have hB : charAt (joinSegs u) (joinSegs u).length = NUL :=
    charAt_past_end _ _ le_rfl
  have hP : charAt (joinSegs u ++ '\\' :: joinSegs (q :: P3))
      (joinSegs u).length = '\\' := by
    rw [charAt_append_len]; exact charAt_cons_zero _ _
  have hBSne : ('\\' : Char) ≠ NUL := by decide
  rw [hpath]
  rw [relCore_compute _ _ (joinSegs u).length
    (bspUpd (joinSegs u) 0 (-1)) ((joinSegs u).length : Int) hscan
    (by rw [if_pos (Or.inl ⟨hB, hP⟩)])
    (by intro hid; exact hBSne (hP ▸ hid.2))]
  have htn : (((joinSegs u).length : Int) + 1).toNat = (joinSegs u).length + 1 := by
    omega
  have hpre1 : ¬(((joinSegs u).length : Int) + 1 < ((joinSegs u).length : Int)) := by
    omega
  have hdropB : (joinSegs u).drop ((joinSegs u).length + 1) = [] :=
    List.drop_eq_nil_of_le (by omega)
  have hdropP : (joinSegs u ++ '\\' :: joinSegs (q :: P3)).drop
      ((joinSegs u).length + 1) = joinSegs (q :: P3) := by
    have hshape : joinSegs u ++ '\\' :: joinSegs (q :: P3)
        = (joinSegs u ++ ['\\']) ++ joinSegs (q :: P3) := by simp
    have hl : (joinSegs u ++ ['\\']).length = (joinSegs u).length + 1 := by simp
    rw [hshape, ← hl, List.drop_left]
  have hsuf : ((joinSegs u).length : Int)
      ≠ ((joinSegs u ++ '\\' :: joinSegs (q :: P3)).length : Int) := by
    simp only [List.length_append, List.length_cons]
    push_cast
    omega
  rw [if_neg hpre1, htn, hdropB, if_pos hsuf, hdropP]
  simp [seps2dots]

/-- `path` is a strict segment-ancestor of `base`:
`relCore (joinSegs u) (joinSegs (u ++ q :: B3))` is one `..\` per remaining
segment of `base`. -/
theorem relCore_ancestor_base (u : List (List Char)) (q : List Char)
    (B3 : List (List Char)) (hu : u ≠ [])
    (huV : ∀ g ∈ u, ValidSeg g) (hq : ValidSeg q)
    (hB3 : ∀ g ∈ B3, ValidSeg g) :
    relCore (joinSegs u) (joinSegs (u ++ q :: B3)) = repDots (B3.length + 1) := by
  have hjuN : ∀ c ∈ joinSegs u, c ≠ NUL :=
    joinSegs_no_nul u (validSegs_no_nul u huV)
  have hbase : joinSegs (u ++ q :: B3)
      = joinSegs u ++ '\\' :: joinSegs (q :: B3) := by
    rw [joinSegs_append_left u _ hu, sepJoin_cons]
  have hscan : relScanAux (joinSegs u)
      (joinSegs u ++ '\\' :: joinSegs (q :: B3)) 0 (-1)
      = ((joinSegs u).length, bspUpd (joinSegs u) 0 (-1)) := by
    have h0 := relScanAux_append (joinSegs u) hjuN
      [] ('\\' :: joinSegs (q :: B3)) 0 (-1)
    simpa [relScanAux_nil_left] using h0
  have hP : charAt (joinSegs u) (joinSegs u).length = NUL :=
    charAt_past_end _ _ le_rfl
  have hB : charAt (joinSegs u ++ '\\' :: joinSegs (q :: B3))
      (joinSegs u).length = '\\' := by
    rw [charAt_append_len]; exact charAt_cons_zero _ _
  have hBSne : ('\\' : Char) ≠ NUL := by decide
  rw [hbase]
  rw [relCore_compute _ _ (joinSegs u).length
    (bspUpd (joinSegs u) 0 (-1)) ((joinSegs u).length : Int) hscan
    (by rw [if_pos (Or.inr ⟨hB, hP⟩)])
    (by intro hid; exact hBSne (hB ▸ hid.1))]
  have hqpos : 0 < (joinSegs (q :: B3)).length := by
    have hsh : joinSegs (q :: B3) = q ++ sepJoin B3 := rfl
    have hq1 : q ≠ [] := hq.1
    have : 0 < q.length := List.length_pos.mpr hq1
    rw [hsh]
    simp only [List.length_append]
    omega
  have hpre1 : ((joinSegs u).length : Int) + 1
      < ((joinSegs u ++ '\\' :: joinSegs (q :: B3)).length : Int) := by
    simp only [List.length_append, List.length_cons]
    push_cast
    omega
  have htn : (((joinSegs u).length : Int) + 1).toNat = (joinSegs u).length + 1 := by
    omega
  have hdropB : (joinSegs u ++ '\\' :: joinSegs (q :: B3)).drop
      ((joinSegs u).length + 1) = joinSegs (q :: B3) := by
    have hshape : joinSegs u ++ '\\' :: joinSegs (q :: B3)
        = (joinSegs u ++ ['\\']) ++ joinSegs (q :: B3) := by simp
    have hl : (joinSegs u ++ ['\\']).length = (joinSegs u).length + 1 := by simp
    rw [hshape, ← hl, List.drop_left]
  have hsuf : ¬(((joinSegs u).length : Int) ≠ ((joinSegs u).length : Int)) := by
    omega
  have hdots : seps2dots (joinSegs (q :: B3)) = repDots B3.length := by
    have hsh : joinSegs (q :: B3) = q ++ sepJoin B3 := rfl
    rw [hsh, seps2dots_append,
      seps2dots_no_sep q (fun c hc => ((hq.2.1 c hc).1)),
      seps2dots_sepJoin B3 (validSegs_no_sep B3 hB3)]
    simp
  rw [if_pos hpre1, htn, hdropB, hdots, if_neg hsuf]
  simp [repDots]

/-- The general mismatch case: the matched region is `pfx ++ w`, where `pfx`
is either empty or ends in the last matched separator, and `w` (separator
free) is the matched part of the first differing segments; the loop stops at
the heads of `Rp`/`Rb` and no ancestor adjustment fires. -/
theorem relCore_mismatch (pfx w Rp Rb : List Char)
    (hN : ∀ c ∈ pfx ++ w, c ≠ NUL)
    (hbsp0 : bspUpd (pfx ++ w) 0 (-1) = (pfx.length : Int) - 1)
    (hstop : ¬(charAt Rp 0 = charAt Rb 0 ∧ charAt Rb 0 ≠ NUL))
    (hnoadj : ¬((charAt Rb 0 = NUL ∧ charAt Rp 0 = '\\')
        ∨ (charAt Rb 0 = '\\' ∧ charAt Rp 0 = NUL)))
    (hnotid : ¬(charAt Rb 0 = NUL ∧ charAt Rp 0 = NUL))
    (hpos : 0 < w.length + Rb.length) :
    relCore ((pfx ++ w) ++ Rp) ((pfx ++ w) ++ Rb)
      = dotdotSep ++ (seps2dots (w ++ Rb) ++ (w ++ Rp)) := by
  have hP : charAt ((pfx ++ w) ++ Rp) (pfx ++ w).length = charAt Rp 0 :=
    charAt_append_len _ _
  have hB : charAt ((pfx ++ w) ++ Rb) (pfx ++ w).length = charAt Rb 0 :=
    charAt_append_len _ _
  have hscan : relScanAux ((pfx ++ w) ++ Rp) ((pfx ++ w) ++ Rb) 0 (-1)
      = ((pfx ++ w).length, (pfx.length : Int) - 1) := by
    rw [relScanAux_append (pfx ++ w) hN Rp Rb 0 (-1),
        relScanAux_stop Rp Rb _ _ hstop, hbsp0]
    simp
  rw [relCore_compute _ _ (pfx ++ w).length ((pfx.length : Int) - 1)
    ((pfx.length : Int) - 1) hscan ?hb ?hni]
  case hb => rw [hP, hB, if_neg hnoadj]
  case hni => rw [hP, hB]; exact fun hid => hnotid ⟨hid.1, hid.2⟩
  have htn : (((pfx.length : Int) - 1) + 1).toNat = pfx.length := by omega
  have hpre1 : ((pfx.length : Int) - 1) + 1
      < (((pfx ++ w) ++ Rb).length : Int) := by
    simp only [List.length_append]
    push_cast
    omega
  have hdropB : ((pfx ++ w) ++ Rb).drop pfx.length = w ++ Rb := by
    rw [List.append_assoc]
    exact List.drop_left pfx (w ++ Rb)
  have hdropP : ((pfx ++ w) ++ Rp).drop pfx.length = w ++ Rp := by
    rw [List.append_assoc]
    exact List.drop_left pfx (w ++ Rp)
  have hsuf : ((pfx.length : Int) - 1) ≠ (((pfx ++ w) ++ Rp).length : Int) := by
    simp only [List.length_append]
    push_cast
    omega
  rw [if_pos hpre1, htn, hdropB, if_pos hsuf, hdropP]

/-! ### Lexical resolution of the computed results -/

theorem resolve_empty (B : List (List Char)) (hB : B ≠ [])
    (hBs : ∀ g ∈ B, ∀ c ∈ g, c ≠ '\\') :
    resolve (joinSegs B) [] = joinSegs B := by
  unfold resolve
  rw [splitSegs_joinSegs B hB hBs]
  simp [splitSegs, applySeg, dotdot]

theorem resolve_appends (u M : List (List Char)) (hu : u ≠ []) (hM : M ≠ [])
    (hus : ∀ g ∈ u, ∀ c ∈ g, c ≠ '\\') (hMs : ∀ g ∈ M, ∀ c ∈ g, c ≠ '\\')
    (hMv : ∀ g ∈ M, g ≠ [] ∧ g ≠ dotdot) :
    resolve (joinSegs u) (joinSegs M) = joinSegs (u ++ M) := by
  unfold resolve
  rw [splitSegs_joinSegs u hu hus, splitSegs_joinSegs M hM hMs,
    foldl_applySeg_plain M hMv u]

theorem resolve_pops (u : List (List Char)) (q : List Char)
    (B3 : List (List Char))
    (hs : ∀ g ∈ u ++ q :: B3, ∀ c ∈ g, c ≠ '\\') :
    resolve (joinSegs (u ++ q :: B3)) (repDots (B3.length + 1)) = joinSegs u := by
  unfold resolve
  rw [splitSegs_joinSegs (u ++ q :: B3) (by simp) hs]
  have hsp : splitSegs (repDots (B3.length + 1))
      = List.replicate (B3.length + 1) dotdot ++ [[]] := by
    have h0 := splitSegs_repDots (B3.length + 1) []
    simpa [splitSegs] using h0
  rw [hsp, List.foldl_append,
    foldl_applySeg_pops (B3.length + 1) (q :: B3) u (by simp)]
  simp [applySeg, dotdot]

theorem resolve_mismatch (u : List (List Char)) (p0 b0 : List Char)
    (P3 B3 : List (List Char))
    (hs : ∀ g ∈ u ++ b0 :: B3, ∀ c ∈ g, c ≠ '\\')
    (hPs : ∀ g ∈ p0 :: P3, ∀ c ∈ g, c ≠ '\\')
    (hPv : ∀ g ∈ p0 :: P3, g ≠ [] ∧ g ≠ dotdot) :
    resolve (joinSegs (u ++ b0 :: B3))
        (repDots (B3.length + 1) ++ joinSegs (p0 :: P3))
      = joinSegs (u ++ p0 :: P3) := by
  unfold resolve
  rw [splitSegs_joinSegs (u ++ b0 :: B3) (by simp) hs,
    splitSegs_repDots (B3.length + 1) (joinSegs (p0 :: P3)),
    splitSegs_joinSegs (p0 :: P3) (by simp) hPs,
    List.foldl_append,
    foldl_applySeg_pops (B3.length + 1) (b0 :: B3) u (by simp),
    foldl_applySeg_plain (p0 :: P3) hPv u]

/-- The four side conditions of `relCore_mismatch`, derived from validity of
the first differing segments `w ++ x` (of `path`) and `w ++ y` (of `base`). -/
theorem mismatch_conds (w x y : List Char) (P3 B3 : List (List Char))
    (hp0 : ValidSeg (w ++ x)) (hb0 : ValidSeg (w ++ y))
    (hxy : ∀ a t b t2, x = a :: t → y = b :: t2 → a ≠ b)
    (hne : x ≠ y) :
    ¬(charAt (x ++ sepJoin P3) 0 = charAt (y ++ sepJoin B3) 0
        ∧ charAt (y ++ sepJoin B3) 0 ≠ NUL)
    ∧ ¬((charAt (y ++ sepJoin B3) 0 = NUL ∧ charAt (x ++ sepJoin P3) 0 = '\\')
        ∨ (charAt (y ++ sepJoin B3) 0 = '\\' ∧ charAt (x ++ sepJoin P3) 0 = NUL))
    ∧ ¬(charAt (y ++ sepJoin B3) 0 = NUL ∧ charAt (x ++ sepJoin P3) 0 = NUL)
    ∧ 0 < w.length + (y ++ sepJoin B3).length := by
  cases x with
  | nil =>
    cases y with
    | nil => exact absurd rfl hne
    | cons b t2 =>
      obtain ⟨hb1, hb2⟩ :=
        hb0.2.1 b (List.mem_append_right w (List.mem_cons_self b t2))
      have hRb : charAt ((b :: t2) ++ sepJoin B3) 0 = b := by
        rw [List.cons_append]; exact charAt_cons_zero _ _
      have hRpcase : charAt (([] : List Char) ++ sepJoin P3) 0 = NUL
          ∨ charAt (([] : List Char) ++ sepJoin P3) 0 = '\\' := by
        cases P3 with
        | nil => left; simp [sepJoin, charAt]
        | cons g t =>
          right
          rw [List.nil_append, sepJoin]
          exact charAt_cons_zero _ _
      refine ⟨?_, ?_, ?_, ?_⟩
      · intro ⟨h1, _⟩
        rw [hRb] at h1
        rcases hRpcase with hc | hc <;> rw [hc] at h1
        · exact hb2 h1.symm
        · exact hb1 h1.symm
      · intro h
        rcases h with ⟨hbn, _⟩ | ⟨hbs, _⟩
        · rw [hRb] at hbn; exact hb2 hbn
        · rw [hRb] at hbs; exact hb1 hbs
      · intro ⟨hbn, _⟩
        rw [hRb] at hbn; exact hb2 hbn
      · simp
  | cons a t =>
    obtain ⟨ha1, ha2⟩ :=
      hp0.2.1 a (List.mem_append_right w (List.mem_cons_self a t))
    have hRp : charAt ((a :: t) ++ sepJoin P3) 0 = a := by
      rw [List.cons_append]; exact charAt_cons_zero _ _
    cases y with
    | nil =>
      have hw : w ≠ [] := by
        intro hw0
        exact hb0.1 (by simp [hw0])
      have hRbcase : charAt (([] : List Char) ++ sepJoin B3) 0 = NUL
          ∨ charAt (([] : List Char) ++ sepJoin B3) 0 = '\\' := by
        cases B3 with
        | nil => left; simp [sepJoin, charAt]
        | cons g t' =>
          right
          rw [List.nil_append, sepJoin]
          exact charAt_cons_zero _ _
      refine ⟨?_, ?_, ?_, ?_⟩
      · intro ⟨h1, h2⟩
        rw [hRp] at h1
        rcases hRbcase with hc | hc
        · rw [hc] at h2; exact h2 rfl
        · rw [hc] at h1; exact ha1 h1
      · intro h
        rcases h with ⟨_, hps⟩ | ⟨_, hpn⟩
        · rw [hRp] at hps; exact ha1 hps
        · rw [hRp] at hpn; exact ha2 hpn
      · intro ⟨_, hpn⟩
        rw [hRp] at hpn; exact ha2 hpn
      · have : 0 < w.length := List.length_pos.mpr hw
        omega
    | cons b t2 =>
      have hab : a ≠ b := hxy a t b t2 rfl rfl
      obtain ⟨hb1, hb2⟩ :=
        hb0.2.1 b (List.mem_append_right w (List.mem_cons_self b t2))
      have hRb : charAt ((b :: t2) ++ sepJoin B3) 0 = b := by
        rw [List.cons_append]; exact charAt_cons_zero _ _
      refine ⟨?_, ?_, ?_, ?_⟩
      · intro ⟨h1, _⟩
        rw [hRp, hRb] at h1; exact hab h1
      · intro h
        rcases h with ⟨hbn, _⟩ | ⟨hbs, _⟩
        · rw [hRb] at hbn; exact hb2 hbn
        · rw [hRb] at hbs; exact hb1 hbs
      · intro ⟨hbn, _⟩
        rw [hRb] at hbn; exact hb2 hbn
      · simp

/-- The heart of the consistency law: for all normalized segment-structured
inputs, resolving the output of the relativization computation against
`base` reproduces `path`. -/
theorem relCore_resolve (P B : List (List Char))
    (hP : ValidSegs P) (hB : ValidSegs B) :
    resolve (joinSegs B) (relCore (joinSegs P) (joinSegs B)) = joinSegs P := by
  obtain ⟨hPne, hPV⟩ := hP
  obtain ⟨hBne, hBV⟩ := hB
  obtain ⟨u, P2, B2, hPu, hBu, hmis⟩ := commonStem P B
  subst hPu
  subst hBu
  cases P2 with
  | nil =>
    cases B2 with
    | nil =>
      simp only [List.append_nil] at hPne hPV hBne hBV ⊢
      rw [relCore_identical (joinSegs u)
        (joinSegs_no_nul u (validSegs_no_nul u hPV))]
      exact resolve_empty u hBne (validSegs_no_sep u hBV)
    | cons b0 B3 =>
      have hu : u ≠ [] := by
        intro h0; exact hPne (by simp [h0])
      simp only [List.append_nil] at hPV ⊢
      rw [relCore_ancestor_base u b0 B3 hu hPV
        (hBV b0 (List.mem_append_right u (List.mem_cons_self b0 B3)))
        (fun g hg => hBV g
          (List.mem_append_right u (List.mem_cons_of_mem b0 hg)))]
      exact resolve_pops u b0 B3 (validSegs_no_sep _ hBV)
  | cons p0 P3 =>
    cases B2 with
    | nil =>
      have hu : u ≠ [] := by
        intro h0; exact hBne (by simp [h0])
      simp only [List.append_nil] at hBV ⊢
      rw [relCore_ancestor_path u p0 P3 hu hBV]
      exact resolve_appends u (p0 :: P3) hu (by simp)
        (validSegs_no_sep u hBV)
        (fun g hg c hc =>
          ((hPV g (List.mem_append_right u hg)).2.1 c hc).1)
        (fun g hg => ⟨(hPV g (List.mem_append_right u hg)).1,
          (hPV g (List.mem_append_right u hg)).2.2⟩)
    | cons b0 B3 =>
      have hp0V : ValidSeg p0 :=
        hPV p0 (List.mem_append_right u (List.mem_cons_self p0 P3))
      have hb0V : ValidSeg b0 :=
        hBV b0 (List.mem_append_right u (List.mem_cons_self b0 B3))
      have hp0b0 : p0 ≠ b0 := hmis p0 P3 b0 B3 rfl rfl
      obtain ⟨w, x, y, hpw, hbw, hxy⟩ := commonStem p0 b0
      have hxyne : x ≠ y := by
        intro h0
        exact hp0b0 (by rw [hpw, hbw, h0])
      have hp0V' : ValidSeg (w ++ x) := hpw ▸ hp0V
      have hb0V' : ValidSeg (w ++ y) := hbw ▸ hb0V
      obtain ⟨hstop, hnoadj, hnotid, hpos⟩ :=
        mismatch_conds w x y P3 B3 hp0V' hb0V' hxy hxyne
      -- the matched character prefix of both strings
      have hwP : ∀ c ∈ w, c ≠ '\\' ∧ c ≠ NUL :=
        fun c hc => hp0V'.2.1 c (List.mem_append_left x hc)
      have hcore : relCore (joinSegs (u ++ p0 :: P3)) (joinSegs (u ++ b0 :: B3))
          = repDots (B3.length + 1) ++ joinSegs (p0 :: P3) := by
        have hjP : joinSegs (p0 :: P3) = w ++ (x ++ sepJoin P3) := by
          rw [joinSegs_cons, hpw, List.append_assoc]
        have hjB : joinSegs (b0 :: B3) = w ++ (y ++ sepJoin B3) := by
          rw [joinSegs_cons, hbw, List.append_assoc]
        have hdots : seps2dots (w ++ (y ++ sepJoin B3)) = repDots B3.length := by
          rw [← List.append_assoc, ← hbw, seps2dots_append,
            seps2dots_no_sep b0 (fun c hc => (hb0V.2.1 c hc).1),
            seps2dots_sepJoin B3 (fun g hg c hc =>
              ((hBV g (List.mem_append_right u (List.mem_cons_of_mem b0 hg))).2.1
                c hc).1)]
          simp
      -- case on whether the common segment stem is empty
        cases u with
        | nil =>
          have hpath : joinSegs ([] ++ p0 :: P3)
              = (([] : List Char) ++ w) ++ (x ++ sepJoin P3) := by
            simp only [List.nil_append]
            exact hjP
          have hbase : joinSegs ([] ++ b0 :: B3)
              = (([] : List Char) ++ w) ++ (y ++ sepJoin B3) := by
            simp only [List.nil_append]
            exact hjB
          rw [hpath, hbase,
            relCore_mismatch [] w (x ++ sepJoin P3) (y ++ sepJoin B3)
              (by simpa using fun c hc => (hwP c hc).2)
              (by
                rw [List.nil_append,
                  bspUpd_no_sep w (fun c hc => (hwP c hc).1) 0 (-1)]
                simp)
              hstop hnoadj hnotid hpos,
            hdots]
          rw [← hjP]
          simp [repDots, List.append_assoc]
        | cons g0 u' =>
          have huNe : (g0 :: u') ≠ ([] : List (List Char)) := by simp
          have hjuN : ∀ c ∈ joinSegs (g0 :: u'), c ≠ NUL :=
            joinSegs_no_nul (g0 :: u')
              (validSegs_no_nul (g0 :: u')
                (fun g hg => hPV g (List.mem_append_left _ hg)))
          have hjuS : ∀ g ∈ (g0 :: u'), ∀ c ∈ g, c ≠ '\\' :=
            validSegs_no_sep (g0 :: u')
              (fun g hg => hPV g (List.mem_append_left _ hg))
          have hpath : joinSegs ((g0 :: u') ++ p0 :: P3)
              = ((joinSegs (g0 :: u') ++ ['\\']) ++ w) ++ (x ++ sepJoin P3) := by
            rw [joinSegs_append_left (g0 :: u') _ huNe, sepJoin_cons, hjP]
            simp [List.append_assoc]
          have hbase : joinSegs ((g0 :: u') ++ b0 :: B3)
              = ((joinSegs (g0 :: u') ++ ['\\']) ++ w) ++ (y ++ sepJoin B3) := by
            rw [joinSegs_append_left (g0 :: u') _ huNe, sepJoin_cons, hjB]
            simp [List.append_assoc]
          have hN : ∀ c ∈ (joinSegs (g0 :: u') ++ ['\\']) ++ w, c ≠ NUL := by
            intro c hc
            rcases List.mem_append.mp hc with hc | hc
            · rcases List.mem_append.mp hc with hc | hc
              · exact hjuN c hc
              · rcases List.mem_singleton.mp hc with rfl; decide
            · exact (hwP c hc).2
          have hbsp : bspUpd ((joinSegs (g0 :: u') ++ ['\\']) ++ w) 0 (-1)
              = (((joinSegs (g0 :: u') ++ ['\\']).length : Int)) - 1 := by
            rw [bspUpd_append (joinSegs (g0 :: u') ++ ['\\']) w,
              bspUpd_no_sep w (fun c hc => (hwP c hc).1),
              bspUpd_append (joinSegs (g0 :: u')) ['\\']]
            simp only [bspUpd, if_pos rfl, List.length_append,
              List.length_singleton]
            push_cast
            omega
          rw [hpath, hbase,
            relCore_mismatch (joinSegs (g0 :: u') ++ ['\\']) w
              (x ++ sepJoin P3) (y ++ sepJoin B3) hN hbsp
              hstop hnoadj hnotid hpos,
            hdots]
          rw [← hjP]
          simp [repDots, List.append_assoc]
      rw [hcore]
      exact resolve_mismatch u p0 b0 P3 B3
        (validSegs_no_sep _ hBV)
        (fun g hg c hc =>
          ((hPV g (List.mem_append_right u hg)).2.1 c hc).1)
        (fun g hg => ⟨(hPV g (List.mem_append_right u hg)).1,
          (hPV g (List.mem_append_right u hg)).2.2⟩)

/-- C2: for every pair accepted by `RelativeTo` (the call returns `true`)
whose inputs are normalized backslash-separated paths — rendered from
nonempty lists of well-formed segments, which covers both the all-relative
and the same-drive absolute case (the drive identifier being the first
segment) — lexically resolving the returned relative path against `base`
(interpreting `..` and plain segments without filesystem access) reproduces
`path` exactly. -/
theorem c2_relativize_roundtrip (P B : List (List Char)) (r0 : List Char)
    (hP : ValidSegs P) (hB : ValidSegs B)
    (hok : (RelativeTo (joinSegs P) (joinSegs B) r0).ok = true) :
    resolve (joinSegs B) ((RelativeTo (joinSegs P) (joinSegs B) r0).result)
      = joinSegs P := by
  have hres : (RelativeTo (joinSegs P) (joinSegs B) r0).result
      = relCore (joinSegs P) (joinSegs B) := by
    unfold RelativeTo at hok ⊢
    split_ifs at hok ⊢ <;> simp_all
  rw [hres]
  exact relCore_resolve P B hP hB

/-- Witness for C2 at `path = C:\foo\bar1`, `base = C:\foo\bar2`. -/
theorem c2_relativize_roundtrip_witness :
    resolve (joinSegs [['C', ':'], ['f', 'o', 'o'], ['b', 'a', 'r', '2']])
        ((RelativeTo
          (joinSegs [['C', ':'], ['f', 'o', 'o'], ['b', 'a', 'r', '1']])
          (joinSegs [['C', ':'], ['f', 'o', 'o'], ['b', 'a', 'r', '2']])
          []).result)
      = joinSegs [['C', ':'], ['f', 'o', 'o'], ['b', 'a', 'r', '1']] :=
  c2_relativize_roundtrip
    [['C', ':'], ['f', 'o', 'o'], ['b', 'a', 'r', '1']]
    [['C', ':'], ['f', 'o', 'o'], ['b', 'a', 'r', '2']]
    [] (by decide) (by decide) (by decide)

end LauncherUtil
